import Mathlib

/-!
Verification of the multi-stream decode-and-align engine of the
Quran-Muaalem repository: the CTC run-collapse decoder, the reference
aligner, the elongation run finder, the multi-level aggregator, the
phoneme diff layer, and the analyze-by-text API handler.

The engine modules themselves (decode, inference, explain) are not part of
the source tree given here (only their tests and callers are), so the
corresponding definitions are modelled from the specification; the API
handler is embedded from api/app.py.
-/

namespace Muaalem

/-- A frame of one classification stream: (symbol id, probability).
Probabilities are modelled as exact rationals. -/
abbrev Frame := Nat × ℚ

/-- Output record of the run-collapse decoder for one stream: parallel id
and probability lists, mirroring the CTCDecodeOut record used by the tests. -/
structure CTCDecodeOut where
  ids : List Nat
  p : List ℚ
  deriving DecidableEq, Repr

/-- Modelled from the spec: closing the current run (id, probability sum,
frame count) emits one occurrence whose probability is the arithmetic mean
of exactly the run's frame probabilities. -/
def flushRun : Option (Nat × ℚ × Nat) → List (Nat × ℚ)
  | none => []
  | some (j, s, c) => [(j, s / (c : ℚ))]

/-- Modelled from the spec: scan the frames left to right, maintaining the
current run of consecutive frames sharing the same non-blank symbol id.
A blank (id 0) frame is dropped and always terminates the current run; an
id change closes the run and starts a new one. Missing from src:
quran_muaalem/decode.py (ctc_decode with collapse_consecutive). -/
def ctcScan : Option (Nat × ℚ × Nat) → List Frame → List (Nat × ℚ)
  | cur, [] => flushRun cur
  | cur, (i, p) :: rest =>
    if i = 0 then flushRun cur ++ ctcScan none rest
    else
      match cur with
      | none => ctcScan (some (i, p, 1)) rest
      | some (j, s, c) =>
        if i = j then ctcScan (some (j, s + p, c + 1)) rest
        else flushRun (some (j, s, c)) ++ ctcScan (some (i, p, 1)) rest

/-- Modelled from the spec: the run-collapse (CTC) decoder for a single
frame stream, given parallel id and probability sequences. -/
def ctc_decode (ids : List Nat) (probs : List ℚ) : CTCDecodeOut :=
  ⟨(ctcScan none (ids.zip probs)).map Prod.fst,
   (ctcScan none (ids.zip probs)).map Prod.snd⟩

/-- Split a frame stream into its maximal runs of equal symbol id, each
run keeping the list of its frame probabilities. -/
def runsSplit : List Frame → List (Nat × List ℚ)
  | [] => []
  | (i, p) :: rest =>
    match runsSplit rest with
    | [] => [(i, [p])]
    | (j, ps) :: rs =>
      if i = j then (i, p :: ps) :: rs else (i, [p]) :: (j, ps) :: rs

/-- Arithmetic mean of a run, as one decoded occurrence. -/
def runMean (r : Nat × List ℚ) : Nat × ℚ :=
  (r.1, r.2.sum / (r.2.length : ℚ))

/-- Declarative description of CTC collapsing: drop the blank (id 0) runs
and map every other maximal run to one occurrence carrying the run's id
and the arithmetic mean of exactly that run's frame probabilities. -/
def ctcRuns (frames : List Frame) : List (Nat × ℚ) :=
  ((runsSplit frames).filter (fun r => decide (r.1 ≠ 0))).map runMean

/-- Prepend a run of id j with probabilities ps to a run list, merging
with the first run when the ids coincide. -/
def mergeRun (j : Nat) (ps : List ℚ) : List (Nat × List ℚ) → List (Nat × List ℚ)
  | [] => [(j, ps)]
  | (k, qs) :: rs => if j = k then (j, ps ++ qs) :: rs else (j, ps) :: (k, qs) :: rs

theorem runsSplit_append (j : Nat) :
    ∀ ps : List ℚ, ps ≠ [] → ∀ l : List Frame,
      runsSplit (ps.map (fun p => (j, p)) ++ l) = mergeRun j ps (runsSplit l) := by
  intro ps
  induction ps with
  | nil => intro h; exact absurd rfl h
  | cons p ps ih =>
    intro _ l
    by_cases hps : ps = []
    · subst hps
      show runsSplit ((j, p) :: l) = mergeRun j [p] (runsSplit l)
      cases hr : runsSplit l with
      | nil => simp [runsSplit, hr, mergeRun]
      | cons hd tl =>
        obtain ⟨k, qs⟩ := hd
        by_cases hjk : j = k
        · subst hjk; simp [runsSplit, hr, mergeRun]
        · simp [runsSplit, hr, mergeRun, hjk]
    · have hmap : (p :: ps).map (fun q => (j, q)) ++ l
          = (j, p) :: (ps.map (fun q => (j, q)) ++ l) := by simp
      rw [hmap]
      have hin := ih hps l
      cases hr : runsSplit l with
      | nil =>
        rw [hr] at hin
        simp only [mergeRun] at hin
        simp [runsSplit, hin, mergeRun]
      | cons hd tl =>
        obtain ⟨k, qs⟩ := hd
        rw [hr] at hin
        by_cases hjk : j = k
        · subst hjk
          simp only [mergeRun, if_pos rfl] at hin
          simp [runsSplit, hin, mergeRun]
        · simp only [mergeRun, if_neg hjk] at hin
          simp [runsSplit, hin, mergeRun, hjk]

theorem ctcRuns_blank (p : ℚ) (rest : List Frame) :
    ctcRuns ((0, p) :: rest) = ctcRuns rest := by
  unfold ctcRuns
  simp only [runsSplit]
  cases hr : runsSplit rest with
  | nil => simp
  | cons hd tl =>
    obtain ⟨j, ps⟩ := hd
    by_cases hj : j = 0
    · subst hj
      simp
    · simp [Ne.symm hj]

theorem runsSplit_cons_exists (i : Nat) (p : ℚ) (rest : List Frame) :
    ∃ qs rs, runsSplit ((i, p) :: rest) = (i, qs) :: rs := by
  simp only [runsSplit]
  cases runsSplit rest with
  | nil => exact ⟨[p], [], rfl⟩
  | cons hd tl =>
    obtain ⟨j, ps⟩ := hd
    by_cases hij : i = j
    · subst hij
      exact ⟨p :: ps, tl, by simp⟩
    · exact ⟨[p], (j, ps) :: tl, by simp [hij]⟩

theorem ctcRuns_run (j : Nat) (hj : j ≠ 0) (ps : List ℚ) (hps : ps ≠ [])
    (l : List Frame) (hl : ∀ q ∈ l.head?, Prod.fst q ≠ j) :
    ctcRuns (ps.map (fun p => (j, p)) ++ l) =
      (j, ps.sum / (ps.length : ℚ)) :: ctcRuns l := by
  unfold ctcRuns
  rw [runsSplit_append j ps hps l]
  cases l with
  | nil =>
    simp [runsSplit, mergeRun, hj, runMean]
  | cons f rest =>
    obtain ⟨i, p⟩ := f
    have hij : i ≠ j := hl (i, p) rfl
    obtain ⟨qs, rs, hsplit⟩ := runsSplit_cons_exists i p rest
    rw [hsplit]
    simp only [mergeRun, if_neg (Ne.symm hij)]
    simp [hj, runMean]

theorem ctcScan_eq (frames : List Frame) :
    (ctcScan none frames = ctcRuns frames) ∧
      (∀ j, j ≠ 0 → ∀ ps : List ℚ, ps ≠ [] →
        ctcScan (some (j, ps.sum, ps.length)) frames =
          ctcRuns (ps.map (fun p => (j, p)) ++ frames)) := by
  induction frames with
  | nil =>
    constructor
    · simp [ctcScan, flushRun, ctcRuns, runsSplit]
    · intro j hj ps hps
      have h := ctcRuns_run j hj ps hps [] (by simp)
      rw [List.append_nil] at h
      rw [List.append_nil, h]
      simp [ctcScan, flushRun, ctcRuns, runsSplit]
  | cons f rest ih =>
    obtain ⟨i, p⟩ := f
    obtain ⟨ih1, ih2⟩ := ih
    by_cases hi : i = 0
    · subst hi
      constructor
      · have h0 : ctcScan none ((0, p) :: rest) = ctcScan none rest := rfl
        rw [h0, ih1, ctcRuns_blank]
      · intro j hj ps hps
        have h0 : ctcScan (some (j, ps.sum, ps.length)) ((0, p) :: rest) =
            (j, ps.sum / (ps.length : ℚ)) :: ctcScan none rest := rfl
        rw [h0, ih1,
          ctcRuns_run j hj ps hps ((0, p) :: rest)
            (by intro q hq; simp at hq; subst hq; simpa using Ne.symm hj),
          ctcRuns_blank]
    · constructor
      · simp only [ctcScan, if_neg hi]
        have := ih2 i hi [p] (by simp)
        simpa using this
      · intro j hj ps hps
        by_cases hij : i = j
        · subst hij
          simp only [ctcScan, if_neg hi, if_pos rfl]
          have := ih2 i hi (ps ++ [p]) (by simp)
          rw [List.sum_append, List.length_append] at this
          simp only [List.sum_cons, List.sum_nil, add_zero, List.length_cons,
            List.length_nil, zero_add] at this
          rw [this, List.map_append]
          simp
        · simp only [ctcScan, if_neg hi, if_neg (fun h => hij h), flushRun,
            List.singleton_append]
          have h1 := ih2 i hi [p] (by simp)
          simp only [List.map_cons, List.map_nil, List.singleton_append,
            List.sum_cons, List.sum_nil, add_zero, List.length_cons,
            List.length_nil, zero_add] at h1
          rw [h1]
          rw [ctcRuns_run j hj ps hps ((i, p) :: rest)
            (by intro q hq; simp at hq; subst hq; simpa using hij)]

/-- C1: the run-collapse decoder collapses each maximal run of consecutive
frames sharing the same non-blank symbol id into one occurrence whose id is
the run's id and whose probability is the arithmetic mean of exactly that
run's frame probabilities; blank (id 0) frames are dropped entirely and
always terminate the current run; and the two concrete fixtures
decode([1,1,0,2,2], [.3,.2,.9,.6,.8]) = ([1,2], [.25,.7]) and
decode([0,0,0,1,1,1,2,0,3,4,5,0,0,0], [.9,.9,.8,.3,.2,.7,.8,1,.9,.6,.8,.9,.9,.8])
= ([1,2,3,4,5], [.4,.8,.9,.6,.8]) hold. -/
theorem C1_ctc_decode_collapses_runs :
    (∀ (ids : List Nat) (probs : List ℚ),
      ctc_decode ids probs =
        ⟨(ctcRuns (ids.zip probs)).map Prod.fst,
         (ctcRuns (ids.zip probs)).map Prod.snd⟩) ∧
    ctc_decode [1, 1, 0, 2, 2] [3/10, 2/10, 9/10, 6/10, 8/10] =
      ⟨[1, 2], [1/4, 7/10]⟩ ∧
    ctc_decode [0, 0, 0, 1, 1, 1, 2, 0, 3, 4, 5, 0, 0, 0]
        [9/10, 9/10, 8/10, 3/10, 2/10, 7/10, 8/10, 1, 9/10, 6/10, 8/10, 9/10, 9/10, 8/10] =
      ⟨[1, 2, 3, 4, 5], [4/10, 8/10, 9/10, 6/10, 8/10]⟩ := by
  refine ⟨fun ids probs => ?_, ?_, ?_⟩
  · unfold ctc_decode
    rw [(ctcScan_eq (ids.zip probs)).1]
  · norm_num [ctc_decode, ctcScan, flushRun]
  · norm_num [ctc_decode, ctcScan, flushRun]

theorem runsSplit_of_chain (frames : List Frame)
    (h : frames.Chain' (fun a b => a.1 ≠ b.1)) :
    runsSplit frames = frames.map (fun f => (f.1, [f.2])) := by
  induction frames with
  | nil => rfl
  | cons f rest ih =>
    obtain ⟨i, p⟩ := f
    cases rest with
    | nil => simp [runsSplit]
    | cons g rest' =>
      obtain ⟨k, q⟩ := g
      have h2 := List.chain'_cons.mp h
      have hik : i ≠ k := h2.1
      have ih' := ih h2.2
      simp only [runsSplit] at ih' ⊢
      rw [ih']
      simp [hik]

/-- C5: run-collapse idempotence — a frame stream with no blank (0) ids and
no two consecutive equal ids is returned unchanged by the decoder, with the
same ids and the same per-position probabilities. -/
theorem C5_ctc_decode_idempotent (ids : List Nat) (probs : List ℚ)
    (hlen : ids.length = probs.length)
    (hblank : ∀ i ∈ ids, i ≠ 0)
    (hchain : ids.Chain' (fun a b => a ≠ b)) :
    ctc_decode ids probs = ⟨ids, probs⟩ := by
  have hfst : (ids.zip probs).map Prod.fst = ids :=
    List.map_fst_zip ids probs (le_of_eq hlen)
  have hsnd : (ids.zip probs).map Prod.snd = probs :=
    List.map_snd_zip ids probs (le_of_eq hlen.symm)
  have hchain' : (ids.zip probs).Chain' (fun a b => a.1 ≠ b.1) := by
    have hiff := List.chain'_map (Prod.fst : Frame → Nat)
      (R := fun a b : Nat => a ≠ b) (l := ids.zip probs)
    rw [hfst] at hiff
    exact hiff.mp hchain
  have hblank' : ∀ f ∈ ids.zip probs, Prod.fst f ≠ (0 : Nat) := by
    intro f hf
    exact hblank f.1 (List.of_mem_zip hf).1
  have hruns : ctcRuns (ids.zip probs) = ids.zip probs := by
    unfold ctcRuns
    rw [runsSplit_of_chain (ids.zip probs) hchain']
    rw [List.filter_eq_self.mpr (by
      intro x hx
      obtain ⟨f, hf, rfl⟩ := List.mem_map.mp hx
      simpa using hblank' f hf)]
    rw [List.map_map]
    have hm : ∀ f ∈ ids.zip probs,
        (runMean ∘ fun f : Frame => (f.1, [f.2])) f = id f := by
      intro f _
      simp [runMean, Function.comp]
    rw [List.map_congr_left hm, List.map_id]
  unfold ctc_decode
  rw [(ctcScan_eq (ids.zip probs)).1, hruns, hfst, hsnd]

/-- Witness for C5 at the already-collapsed stream of the tests. -/
theorem C5_witness :
    ([1, 2, 3, 4, 5] : List Nat).length =
        ([3/10, 2/10, 9/10, 6/10, 8/10] : List ℚ).length ∧
      (∀ i ∈ ([1, 2, 3, 4, 5] : List Nat), i ≠ 0) ∧
      ([1, 2, 3, 4, 5] : List Nat).Chain' (fun a b => a ≠ b) ∧
      ctc_decode [1, 2, 3, 4, 5] [3/10, 2/10, 9/10, 6/10, 8/10] =
        ⟨[1, 2, 3, 4, 5], [3/10, 2/10, 9/10, 6/10, 8/10]⟩ :=
  ⟨by decide, by decide, by norm_num [List.chain'_cons],
    C5_ctc_decode_idempotent [1, 2, 3, 4, 5] [3/10, 2/10, 9/10, 6/10, 8/10]
      (by decide) (by decide) (by norm_num [List.chain'_cons])⟩

/-- Sentinel id for a reference position with no matching decoded symbol:
the out-of-vocabulary marker, -100 in the tests. -/
def sentinel : Int := -100

/-- True when placing the decoded sequence at integer shift s puts decoded
position i on a reference position holding the same symbol id. -/
def matchAt (ref pred : List Int) (s : Int) (i : Nat) : Bool :=
  decide (0 ≤ s + (i : Int)) &&
    match ref.get? (s + (i : Int)).toNat, pred.get? i with
    | some a, some b => decide (a = b)
    | _, _ => false

/-- Number of position-wise equal symbol ids when the decoded sequence is
placed at shift s over the reference. -/
def countMatches (ref pred : List Int) (s : Int) : Nat :=
  ((List.range pred.length).filter (matchAt ref pred s)).length

/-- The shift of the decoded sequence over the reference with the highest
number of position-wise equal symbol ids (earliest such shift on ties),
over all shifts with a non-empty overlap. -/
def bestShift (ref pred : List Int) : Int :=
  let shifts := (List.range (ref.length + pred.length - 1)).map
    (fun (k : Nat) => (k : Int) - ((pred.length : Int) - 1))
  match shifts.foldl
      (fun best s =>
        match best with
        | none => some (s, countMatches ref pred s)
        | some (b, c) =>
          if countMatches ref pred s > c then some (s, countMatches ref pred s)
          else some (b, c))
      none with
  | none => 0
  | some (b, _) => b

/-- Modelled from the spec: the reference aligner. Equal lengths pass
through unchanged with an all-accepted mask and no search; otherwise the
decoded sequence is slid over the reference to the shift with the highest
number of position-wise equal symbol ids, decoded occurrences falling
outside the reference are discarded, and uncovered reference positions are
filled with the sentinel. Missing from src: quran_muaalem/decode.py
(align_predicted_sequence), whose behaviour is fixed by the section-8
fixtures. -/
def align_predicted_sequence (ref pred : List Int) : List Int × List Bool :=
  if pred.length = ref.length then
    (pred, List.replicate pred.length true)
  else
    let s := bestShift ref pred
    ((List.range ref.length).map (fun (j : Nat) =>
        if decide (s ≤ (j : Int)) && decide ((j : Int) < s + pred.length) then
          (pred.get? ((j : Int) - s).toNat).getD sentinel
        else sentinel),
      (List.range pred.length).map (fun (i : Nat) =>
        decide (0 ≤ s + (i : Int)) && decide (s + (i : Int) < (ref.length : Int))))

/-- C2: for equal-length reference and decoded sequences the aligner
returns the decoded sequence unchanged together with an all-accepted
(all-true) mask, regardless of content. -/
theorem C2_align_equal_length (ref pred : List Int)
    (h : pred.length = ref.length) :
    align_predicted_sequence ref pred = (pred, List.replicate pred.length true) := by
  simp [align_predicted_sequence, h]

/-- Witness for C2 at the content-disjoint fixture ref [0,1,2,3],
pred [3,2,1,0]. -/
theorem C2_witness :
    ([3, 2, 1, 0] : List Int).length = ([0, 1, 2, 3] : List Int).length ∧
      align_predicted_sequence [0, 1, 2, 3] [3, 2, 1, 0] =
        ([3, 2, 1, 0], [true, true, true, true]) :=
  ⟨by decide,
    (C2_align_equal_length [0, 1, 2, 3] [3, 2, 1, 0] (by decide)).trans (by decide)⟩

/-- C3: the three length-mismatch fixtures of spec section 8: a trailing
decoded extra is discarded; a decoded suffix match leaves leading
reference positions sentinel-filled and discards the trailing extra; a
missing leading symbol is sentinel-filled with everything accepted. -/
theorem C3_align_fixtures :
    align_predicted_sequence [0, 1, 2, 3] [0, 1, 2, 3, 4] =
        ([0, 1, 2, 3], [true, true, true, true, false]) ∧
      align_predicted_sequence [0, 1, 2, 3] [2, 3, 4] =
        ([sentinel, sentinel, 2, 3], [true, true, false]) ∧
      align_predicted_sequence [0, 1, 2, 3] [1, 2, 3] =
        ([sentinel, 1, 2, 3], [true, true, true]) := by
  refine ⟨?_, ?_, ?_⟩ <;> decide

/-- C4: for every reference and decoded sequence the aligned output has
exactly the reference length and the accept/discard mask exactly the
length of the decoded sequence, one flag per decoded occurrence. -/
theorem C4_align_lengths (ref pred : List Int) :
    (align_predicted_sequence ref pred).1.length = ref.length ∧
      (align_predicted_sequence ref pred).2.length = pred.length := by
  by_cases h : pred.length = ref.length
  · rw [align_predicted_sequence, if_pos h]
    exact ⟨h, by simp⟩
  · rw [align_predicted_sequence, if_neg h]
    constructor
    · simp only [List.length_map, List.length_range]
    · simp only [List.length_map, List.length_range]

/-- A maximal run inside an occupancy sequence: its value, its absolute
start index and its length. -/
structure Run where
  val : Nat
  start : Nat
  len : Nat
  deriving DecidableEq, Repr

/-- The maximal contiguous runs of the sequence, with absolute start
indices counted from i. -/
def runsFrom : List Nat → Nat → List Run
  | [], _ => []
  | x :: rest, i =>
    match runsFrom rest (i + 1) with
    | r :: rs =>
      if r.val = x ∧ r.start = i + 1 then ⟨x, i, r.len + 1⟩ :: rs
      else ⟨x, i, 1⟩ :: r :: rs
    | [] => [⟨x, i, 1⟩]

/-- Modelled from the spec: the elongation run finder (align_sequence /
find_run_starts). The amount to trim is the sequence length minus
target_len; every maximal run whose length is at least min_repeat
contributes the trim-window start offsets that fit inside the run while
leaving at least one frame of the run after the window, translated to
absolute indices. The offset-counting rule is locked against the section-8
fixtures. Missing from src: quran_muaalem/decode.py. -/
def align_sequence (seq : List Nat) (target_len min_repeat : Nat) : List Nat :=
  let remove := seq.length - target_len
  ((runsFrom seq 0).filter (fun r => decide (min_repeat ≤ r.len))).flatMap
    (fun r =>
      ((List.range remove).filter (fun k => decide (k + remove < r.len))).map
        (fun k => r.start + k))

/-- C9: the run finder operates only over maximal contiguous runs and a run
qualifies only when its length is at least min_repeat — when every maximal
run is shorter than min_repeat the result is empty — and the four spec
fixtures hold: align_sequence([1,1,1,1,1],3,6)=[],
align_sequence([1,0,1,1,0],3,1)=[], align_sequence([1,1,1,1,1],3,3)=[0,1],
align_sequence([1,1,1,0,0,0,0,0,1,1,1,0],10,5)=[3,4]. -/
theorem C9_align_sequence_runs :
    (∀ (seq : List Nat) (t m : Nat),
        (∀ r ∈ runsFrom seq 0, r.len < m) → align_sequence seq t m = []) ∧
      align_sequence [1, 1, 1, 1, 1] 3 6 = [] ∧
      align_sequence [1, 0, 1, 1, 0] 3 1 = [] ∧
      align_sequence [1, 1, 1, 1, 1] 3 3 = [0, 1] ∧
      align_sequence [1, 1, 1, 0, 0, 0, 0, 0, 1, 1, 1, 0] 10 5 = [3, 4] := by
  refine ⟨?_, by decide, by decide, by decide, by decide⟩
  intro seq t m h
  unfold align_sequence
  have hfil : (runsFrom seq 0).filter (fun r => decide (m ≤ r.len)) = [] := by
    rw [List.filter_eq_nil_iff]
    intro r hr
    simp only [decide_eq_true_eq]
    exact not_le.mpr (h r hr)
  rw [hfil]
  rfl

/-- Witness for C9: the min_repeat = 6 fixture instantiates the general
no-qualifying-run conjunct at a concrete input. -/
theorem C9_witness :
    (∀ r ∈ runsFrom [1, 1, 1, 1, 1] 0, r.len < 6) ∧
      align_sequence [1, 1, 1, 1, 1] 3 6 = [] :=
  ⟨by decide, C9_align_sequence_runs.1 [1, 1, 1, 1, 1] 3 6 (by decide)⟩

/-- Tag of a diff segment: equal, insert (present only in the actual text)
or delete (present only in the expected text). -/
inductive DTag where
  | equal
  | insert
  | delete
  deriving DecidableEq, Repr

/-- A diff segment: a tag and the literal character span it carries. -/
abbrev DiffSeg := DTag × List Char

/-- Length of a longest common subsequence, fuel-bounded (the fuel is
always instantiated to at least the total length of the two inputs). -/
def lcsLen : Nat → List Char → List Char → Nat
  | 0, _, _ => 0
  | fuel + 1, as, bs =>
    match as, bs with
    | [], _ => 0
    | _, [] => 0
    | a :: as, b :: bs =>
      if a = b then lcsLen fuel as bs + 1
      else max (lcsLen fuel as (b :: bs)) (lcsLen fuel (a :: as) bs)

/-- Modelled from the spec: a standard longest-common-subsequence-style
character diff between the expected and the actual text, emitting
equal/insert/delete segments (the diff engine used by the explain layer,
diff_match_patch's diff_main, is external to the tree). Ties prefer the
delete branch, so a fully disjoint pair yields all deletions before all
insertions. -/
def diffFuel : Nat → List Char → List Char → List DiffSeg
  | 0, as, bs =>
    (if as.isEmpty then [] else [(DTag.delete, as)]) ++
      (if bs.isEmpty then [] else [(DTag.insert, bs)])
  | fuel + 1, as, bs =>
    match as, bs with
    | [], [] => []
    | [], b :: bs => [(DTag.insert, b :: bs)]
    | a :: as, [] => [(DTag.delete, a :: as)]
    | a :: as, b :: bs =>
      if a = b then (DTag.equal, [a]) :: diffFuel fuel as bs
      else if lcsLen (as.length + bs.length + 2) as (b :: bs) ≥
          lcsLen (as.length + bs.length + 2) (a :: as) bs then
        (DTag.delete, [a]) :: diffFuel fuel as (b :: bs)
      else (DTag.insert, [b]) :: diffFuel fuel (a :: as) bs

/-- Modelled from the spec: diff_phonemes over the expected and actual
phoneme strings. -/
def diff_phonemes (expected actual : String) : List DiffSeg :=
  diffFuel (expected.data.length + actual.data.length) expected.data actual.data

/-- Characters of the expected side of an edit script: the concatenation,
in order, of its equal and delete segments. -/
def keepEqDel : List DiffSeg → List Char
  | [] => []
  | (t, cs) :: rest => (if t = DTag.insert then [] else cs) ++ keepEqDel rest

/-- Characters of the actual side of an edit script: the concatenation, in
order, of its equal and insert segments. -/
def keepEqIns : List DiffSeg → List Char
  | [] => []
  | (t, cs) :: rest => (if t = DTag.delete then [] else cs) ++ keepEqIns rest

theorem diffFuel_roundtrip :
    ∀ (fuel : Nat) (as bs : List Char), as.length + bs.length ≤ fuel →
      keepEqDel (diffFuel fuel as bs) = as ∧
        keepEqIns (diffFuel fuel as bs) = bs := by
  intro fuel
  induction fuel with
  | zero =>
    intro as bs h
    have ha : as = [] := by
      cases as with
      | nil => rfl
      | cons x xs => simp at h
    have hb : bs = [] := by
      cases bs with
      | nil => rfl
      | cons x xs => simp at h
    subst ha; subst hb
    simp [diffFuel, keepEqDel, keepEqIns]
  | succ fuel ih =>
    intro as bs h
    cases as with
    | nil =>
      cases bs with
      | nil => simp [diffFuel, keepEqDel, keepEqIns]
      | cons b bs => simp [diffFuel, keepEqDel, keepEqIns]
    | cons a as =>
      cases bs with
      | nil => simp [diffFuel, keepEqDel, keepEqIns]
      | cons b bs =>
        by_cases hab : a = b
        · obtain ⟨h1, h2⟩ := ih as bs (by simp at h ⊢; omega)
          subst hab
          simp [diffFuel, keepEqDel, keepEqIns, h1, h2]
        · obtain ⟨h1, h2⟩ := ih as (b :: bs) (by simp at h ⊢; omega)
          obtain ⟨h3, h4⟩ := ih (a :: as) bs (by simp at h ⊢; omega)
          by_cases hge : lcsLen (as.length + bs.length + 2) as (b :: bs) ≥
              lcsLen (as.length + bs.length + 2) (a :: as) bs
          · simp only [diffFuel, if_neg hab, if_pos hge]
            simp [keepEqDel, keepEqIns, h1, h2]
          · simp only [diffFuel, if_neg hab, if_neg hge]
            simp [keepEqDel, keepEqIns, h3, h4]

/-- C7: for every pair of strings the diff is a lossless edit script —
concatenating the equal and delete segments reconstructs the expected
text, and concatenating the equal and insert segments reconstructs the
actual text. -/
theorem C7_diff_roundtrip (expected actual : String) :
    keepEqDel (diff_phonemes expected actual) = expected.data ∧
      keepEqIns (diff_phonemes expected actual) = actual.data :=
  diffFuel_roundtrip (expected.data.length + actual.data.length)
    expected.data actual.data (le_refl _)

/-- A correlated pair of phoneme groups, mirroring the PhonemeGroup
dataclass of the explain layer: each side carries its text (empty when
absent) and its 0-based group index when present. -/
structure PhonemeGroup where
  ref : String
  ref_idx : Option Nat
  out : String
  out_idx : Option Nat
  deriving DecidableEq, Repr

/-- Pairs of (expected position, actual position) matched by the equal
segments of a diff, with r and o the running character offsets. -/
def eqPairs : List DiffSeg → Nat → Nat → List (Nat × Nat)
  | [], _, _ => []
  | (t, cs) :: rest, r, o =>
    match t with
    | DTag.equal =>
      (List.range cs.length).map (fun k => (r + k, o + k)) ++
        eqPairs rest (r + cs.length) (o + cs.length)
    | DTag.delete => eqPairs rest (r + cs.length) o
    | DTag.insert => eqPairs rest r (o + cs.length)

/-- Index of the group containing character position pos, by cumulative
group lengths, counting group indices from idx. -/
def groupOfAux : List String → Nat → Nat → Option Nat
  | [], _, _ => none
  | g :: gs, pos, idx =>
    if pos < g.length then some idx else groupOfAux gs (pos - g.length) (idx + 1)

/-- Index of the group containing character position pos. -/
def groupOf (groups : List String) (pos : Nat) : Option Nat :=
  groupOfAux groups pos 0

/-- A connected block of correlated groups: inclusive group-index
intervals on the reference and the actual side. -/
structure Block where
  rLo : Nat
  rHi : Nat
  oLo : Nat
  oHi : Nat
  deriving DecidableEq, Repr

/-- Fold one (reference group, actual group) link into the blocks built so
far (kept most-recent-first): a link touching the current block extends
it, any other link opens a new block. -/
def addLink : List Block → Nat × Nat → List Block
  | [], (ri, oi) => [⟨ri, ri, oi, oi⟩]
  | b :: bs, (ri, oi) =>
    if ri ≤ b.rHi ∨ oi ≤ b.oHi then
      ⟨b.rLo, max b.rHi ri, b.oLo, max b.oHi oi⟩ :: bs
    else ⟨ri, ri, oi, oi⟩ :: b :: bs

/-- The connected blocks of a link list, in first-appearance order. -/
def linkBlocks (links : List (Nat × Nat)) : List Block :=
  (links.foldl addLink []).reverse

/-- Concatenation of the group texts with indices in [lo, hi]. -/
def concatRange (gs : List String) (lo hi : Nat) : String :=
  ((gs.drop lo).take (hi + 1 - lo)).foldl (fun a b => a ++ b) ""

/-- Walk the reference groups in order through the blocks, emitting
reference-only groups and merged blocks. -/
def emitRef (refG outG : List String) : Nat → List Block → List PhonemeGroup
  | r, [] =>
    (List.range' r (refG.length - r)).map
      (fun i => ⟨(refG.get? i).getD "", some i, "", none⟩)
  | r, b :: bs =>
    (List.range' r (b.rLo - r)).map
        (fun i => ⟨(refG.get? i).getD "", some i, "", none⟩) ++
      ⟨concatRange refG b.rLo b.rHi, some b.rLo,
          concatRange outG b.oLo b.oHi, some b.oLo⟩ ::
        emitRef refG outG (b.rHi + 1) bs

/-- Modelled from the spec: segment_groups re-partitions the flat
character diff back to the callers' phoneme-group granularity: groups
sharing an equal-matched character position are correlated (merged when
diff boundaries do not coincide with group boundaries), uncorrelated
reference groups are emitted in reference order, and uncorrelated actual
groups follow in actual order. Missing from src:
quran_muaalem/explain.py (segment_groups). -/
def segment_groups (ref_groups out_groups : List String)
    (diffs : List DiffSeg) : List PhonemeGroup :=
  let links := (eqPairs diffs 0 0).filterMap
    (fun q =>
      match groupOf ref_groups q.1, groupOf out_groups q.2 with
      | some ri, some oi => some (ri, oi)
      | _, _ => none)
  let blocks := linkBlocks links
  emitRef ref_groups out_groups 0 blocks ++
    ((List.range out_groups.length).filter
        (fun o => blocks.all (fun b => decide (o < b.oLo) || decide (b.oHi < o)))).map
      (fun o => ⟨"", none, (out_groups.get? o).getD "", some o⟩)

/-- C8: the two section-8 fixtures of segment_groups: identical texts and
groups give two exact-matched pairs at indices (0,0) and (1,1); fully
disjoint texts give the two reference-only groups followed by the two
actual-only groups, with no merged group. -/
theorem C8_segment_groups_fixtures :
    segment_groups ["ab", "cd"] ["ab", "cd"] (diff_phonemes "abcd" "abcd") =
        [⟨"ab", some 0, "ab", some 0⟩, ⟨"cd", some 1, "cd", some 1⟩] ∧
      segment_groups ["ab", "cd"] ["ef", "gh"] (diff_phonemes "abcd" "efgh") =
        [⟨"ab", some 0, "", none⟩, ⟨"cd", some 1, "", none⟩,
          ⟨"", none, "ef", some 0⟩, ⟨"", none, "gh", some 1⟩] := by
  constructor <;> decide

/-- A single decoded feature value: label text, probability, symbol id,
mirroring the SingleUnit dataclass of the tests. -/
structure SingleUnit where
  text : String
  prob : ℚ
  idx : Int
  deriving DecidableEq, Repr

/-- An aligned unit of one stream: parallel id and probability lists. -/
structure UnitRec where
  ids : List Int
  probs : List ℚ
  deriving DecidableEq, Repr

/-- The ten phonetic-feature names (sifat) of the aggregator. -/
inductive Feature where
  | hams_or_jahr
  | shidda_or_rakhawa
  | tafkheem_or_taqeeq
  | itbaq
  | safeer
  | qalqla
  | tikraar
  | tafashie
  | istitala
  | ghonna
  deriving DecidableEq, Repr

/-- One aggregated record per reference phoneme group, mirroring the Sifa
dataclass: the group text and one optional value per feature. -/
structure Sifa where
  phonemes_group : String
  hams_or_jahr : Option SingleUnit
  shidda_or_rakhawa : Option SingleUnit
  tafkheem_or_taqeeq : Option SingleUnit
  itbaq : Option SingleUnit
  safeer : Option SingleUnit
  qalqla : Option SingleUnit
  tikraar : Option SingleUnit
  tafashie : Option SingleUnit
  istitala : Option SingleUnit
  ghonna : Option SingleUnit
  deriving DecidableEq, Repr

/-- The feature attribute of one aligned stream at position i: absent when
position i lies past the stream's truncated length or holds the sentinel,
else the vocabulary label with the stream's probability and id. -/
def attrAt (label : Int → String) (u : UnitRec) (i : Nat) : Option SingleUnit :=
  match u.ids.get? i with
  | none => none
  | some v => if v = sentinel then none
              else some ⟨label v, (u.probs.get? i).getD 0, v⟩

/-- Modelled from the spec: format_sifat builds one Sifa record per
reference phoneme group; record i carries phoneme_groups[i] and, per
feature, the aligned (label, probability, id) at position i when present,
none otherwise. vocab is the per-feature id-to-label lookup. Missing from
src: quran_muaalem/inference.py (format_sifat). -/
def format_sifat (vocab : Feature → Int → String) (units : Feature → UnitRec)
    (groups : List String) : List Sifa :=
  (List.range groups.length).map (fun i =>
    ⟨(groups.get? i).getD "",
      attrAt (vocab Feature.hams_or_jahr) (units Feature.hams_or_jahr) i,
      attrAt (vocab Feature.shidda_or_rakhawa) (units Feature.shidda_or_rakhawa) i,
      attrAt (vocab Feature.tafkheem_or_taqeeq) (units Feature.tafkheem_or_taqeeq) i,
      attrAt (vocab Feature.itbaq) (units Feature.itbaq) i,
      attrAt (vocab Feature.safeer) (units Feature.safeer) i,
      attrAt (vocab Feature.qalqla) (units Feature.qalqla) i,
      attrAt (vocab Feature.tikraar) (units Feature.tikraar) i,
      attrAt (vocab Feature.tafashie) (units Feature.tafashie) i,
      attrAt (vocab Feature.istitala) (units Feature.istitala) i,
      attrAt (vocab Feature.ghonna) (units Feature.ghonna) i⟩)

/-- The feature slot of a Sifa record, by feature name. -/
def Sifa.attr (s : Sifa) : Feature → Option SingleUnit
  | Feature.hams_or_jahr => s.hams_or_jahr
  | Feature.shidda_or_rakhawa => s.shidda_or_rakhawa
  | Feature.tafkheem_or_taqeeq => s.tafkheem_or_taqeeq
  | Feature.itbaq => s.itbaq
  | Feature.safeer => s.safeer
  | Feature.qalqla => s.qalqla
  | Feature.tikraar => s.tikraar
  | Feature.tafashie => s.tafashie
  | Feature.istitala => s.istitala
  | Feature.ghonna => s.ghonna

theorem attrAt_eq_none (label : Int → String) (u : UnitRec) (i : Nat) :
    attrAt label u i = none ↔
      (u.ids.get? i = none ∨ u.ids.get? i = some sentinel) := by
  unfold attrAt
  cases h : u.ids.get? i with
  | none => simp
  | some v =>
    by_cases hv : v = sentinel
    · subst hv; simp
    · simp [hv]

/-- C6: format_sifat returns exactly one record per reference phoneme
group; record i carries phoneme group i; and a feature attribute of
record i is none exactly when that stream's aligned unit has no decoded
occurrence at position i — a sentinel there, or i past the stream's
truncated length — so a label is never fabricated. -/
theorem C6_format_sifat (vocab : Feature → Int → String)
    (units : Feature → UnitRec) (groups : List String) :
    (format_sifat vocab units groups).length = groups.length ∧
      ∀ i s, (format_sifat vocab units groups).get? i = some s →
        groups.get? i = some s.phonemes_group ∧
          ∀ f, (s.attr f = none ↔
            ((units f).ids.get? i = none ∨ (units f).ids.get? i = some sentinel)) := by
  constructor
  · simp [format_sifat]
  · intro i s hs
    unfold format_sifat at hs
    rw [List.get?_map] at hs
    have hlt : i < groups.length := by
      by_contra hge
      rw [List.get?_eq_none.mpr (by simpa using Nat.le_of_not_lt hge)] at hs
      simp at hs
    rw [List.get?_range hlt] at hs
    simp only [Option.map_some'] at hs
    have hs' := Option.some.inj hs
    subst hs'
    constructor
    · cases hg : groups.get? i with
      | none => exact absurd hlt (not_lt.mpr (List.get?_eq_none.mp hg))
      | some g => simp [hg]
    · intro f
      cases f <;> simp only [Sifa.attr] <;> exact attrAt_eq_none _ _ _

/-- Concrete vocabulary for the C6 witness. -/
def vocabW : Feature → Int → String := fun _ _ => ""

/-- Concrete aligned units for the C6 witness: every stream has two
decoded occurrences except ghonna, which was truncated to one. -/
def unitsW : Feature → UnitRec := fun f =>
  match f with
  | Feature.ghonna => ⟨[1], [1]⟩
  | _ => ⟨[1, 2], [1, 2]⟩

/-- The record the C6 witness expects at position 1: every feature
present except ghonna, which is none. -/
def sifaW : Sifa :=
  ⟨"b", some ⟨"", 2, 2⟩, some ⟨"", 2, 2⟩, some ⟨"", 2, 2⟩, some ⟨"", 2, 2⟩,
    some ⟨"", 2, 2⟩, some ⟨"", 2, 2⟩, some ⟨"", 2, 2⟩, some ⟨"", 2, 2⟩,
    some ⟨"", 2, 2⟩, none⟩

/-- Witness for C6: with two phoneme groups and a ghonna stream of length
one, record 1 exists, carries group "b", and its ghonna attribute is none
precisely because position 1 lies past the ghonna stream's length. -/
theorem C6_witness :
    (format_sifat vocabW unitsW ["a", "b"]).get? 1 = some sifaW ∧
      ["a", "b"].get? 1 = some sifaW.phonemes_group ∧
      (sifaW.attr Feature.ghonna = none ↔
        ((unitsW Feature.ghonna).ids.get? 1 = none ∨
          (unitsW Feature.ghonna).ids.get? 1 = some sentinel)) :=
  ⟨by decide,
    ((C6_format_sifat vocabW unitsW ["a", "b"]).2 1 sifaW (by decide)).1,
    ((C6_format_sifat vocabW unitsW ["a", "b"]).2 1 sifaW (by decide)).2
      Feature.ghonna⟩

/-- An HTTP error raised by a handler: status code and detail, mirroring
fastapi's HTTPException as used in api/app.py. -/
structure HTTPException where
  status_code : Nat
  detail : String
  deriving DecidableEq, Repr

/-- The externally observable collaborator calls of the analyze-by-text
handler, in the order api/app.py performs them. -/
inductive ApiEffect where
  | loadAudio
  | buildMoshafCall
  | phonetize
  | inference
  | buildResponseCall
  deriving DecidableEq, Repr

/-- Python's str.strip over the characters of a string, as used by the
uthmani_text emptiness check of api/app.py. -/
def pyStrip (s : String) : String :=
  ⟨(((s.data.dropWhile Char.isWhitespace).reverse).dropWhile
      Char.isWhitespace).reverse⟩

/-- Embedded from api/app.py, analyze_by_text: after logging, an empty or
whitespace-only uthmani_text raises HTTP 400 "uthmani_text cannot be
empty" before any audio loading, moshaf construction, phonetization or
model inference; otherwise the audio is loaded (its own failures become
HTTP 4xx from load_wave_from_upload, modelled as an Except result), the
moshaf is built, the text phonetized, the model run (an exception becomes
HTTP 500 "Model inference failed: ...", an empty output list becomes HTTP
500 "Model returned no output") and the response built from the first
output. Collaborators are oracle parameters; the returned trace records
which collaborators ran, in order. -/
def analyze_by_text {W M P D R : Type}
    (loadWave : Unit → Except HTTPException W)
    (buildMoshaf : Unit → M)
    (phonetizerOut : String → M → P)
    (infer : W → P → Except String (List D))
    (buildResponse : D → R)
    (uthmani_text : String) : Except HTTPException R × List ApiEffect :=
  if pyStrip uthmani_text = "" then
    (Except.error ⟨400, "uthmani_text cannot be empty"⟩, [])
  else
    match loadWave () with
    | Except.error e => (Except.error e, [ApiEffect.loadAudio])
    | Except.ok wave =>
      let moshaf := buildMoshaf ()
      let phon := phonetizerOut uthmani_text moshaf
      match infer wave phon with
      | Except.error e =>
        (Except.error ⟨500, "Model inference failed: " ++ e⟩,
          [ApiEffect.loadAudio, ApiEffect.buildMoshafCall, ApiEffect.phonetize,
            ApiEffect.inference])
      | Except.ok [] =>
        (Except.error ⟨500, "Model returned no output"⟩,
          [ApiEffect.loadAudio, ApiEffect.buildMoshafCall, ApiEffect.phonetize,
            ApiEffect.inference])
      | Except.ok (out :: _) =>
        (Except.ok (buildResponse out),
          [ApiEffect.loadAudio, ApiEffect.buildMoshafCall, ApiEffect.phonetize,
            ApiEffect.inference, ApiEffect.buildResponseCall])

/-- C10: a POST to /api/analyze-by-text whose uthmani_text is empty or
whitespace-only yields HTTPException 400 with detail "uthmani_text cannot
be empty", and no audio loading, phonetization or model inference is
performed for that request (the effect trace is empty). -/
theorem C10_analyze_by_text_empty {W M P D R : Type}
    (loadWave : Unit → Except HTTPException W) (buildMoshaf : Unit → M)
    (phonetizerOut : String → M → P) (infer : W → P → Except String (List D))
    (buildResponse : D → R) (uthmani_text : String)
    (h : pyStrip uthmani_text = "") :
    analyze_by_text loadWave buildMoshaf phonetizerOut infer buildResponse
        uthmani_text =
      (Except.error ⟨400, "uthmani_text cannot be empty"⟩, []) := by
  simp [analyze_by_text, h]

/-- Witness for C10 at the whitespace-only text of two spaces, with
trivial collaborators. -/
theorem C10_witness :
    pyStrip "  " = "" ∧
      analyze_by_text (fun _ => Except.ok ()) (fun _ => ()) (fun _ _ => ())
          (fun _ _ => Except.ok [()]) (fun _ => ()) "  " =
        (Except.error ⟨400, "uthmani_text cannot be empty"⟩, []) :=
  ⟨by decide,
    C10_analyze_by_text_empty (fun _ => Except.ok ()) (fun _ => ())
      (fun _ _ => ()) (fun _ _ => Except.ok [()]) (fun _ => ()) "  " (by decide)⟩

end Muaalem
